/-
Verification of the sparse-set powerset abstract-domain value
(Briggs & Torczon sparse sets) from SparseSetAbstractDomain.h.

The C++ class SparseSetValue<IntegerType> is embedded shallowly:
machine vectors become lists of naturals, each vector read becomes an
Option-returning index so that an out-of-bounds access is visible as
none, and every mutating method becomes a function from the state to
the new state (paired with the returned AbstractValueKind where the
source returns one).  The total wrappers recover the source behaviour
under the representation invariant, where the none branch is proved
unreachable.
-/
import Mathlib

namespace SparseSetDomain

/-- The kind returned by abstract-value operations in the source. -/
inductive AbstractValueKind where
  | Bottom
  | Value
  | Top
deriving DecidableEq, Repr

/-- State of SparseSetValue: m_capacity, m_element_num, m_dense, m_sparse.
The two vectors are sized m_capacity in every reachable state. -/
structure SparseSetValue where
  m_capacity : Nat
  m_element_num : Nat
  m_dense : List Nat
  m_sparse : List Nat
deriving DecidableEq, Repr

namespace SparseSetValue

/-- The default constructor: capacity 0, no elements, empty vectors. -/
def default_value : SparseSetValue := ⟨0, 0, [], []⟩

/-- The constructor taking a universe size: empty set, both vectors
value-initialized (all zeros) with length max_size. -/
def mk_empty (max_size : Nat) : SparseSetValue :=
  ⟨max_size, 0, List.replicate max_size 0, List.replicate max_size 0⟩

/-- clear(): m_element_num := 0. -/
def clear (s : SparseSetValue) : SparseSetValue := { s with m_element_num := 0 }

/-- size(): returns m_element_num. -/
def size (s : SparseSetValue) : Nat := s.m_element_num

/-- kind(): always AbstractValueKind::Value. -/
def kind (_ : SparseSetValue) : AbstractValueKind := AbstractValueKind.Value

/-- elements(): the vector of elements, i.e. m_dense up to m_element_num. -/
def elements (s : SparseSetValue) : List Nat := s.m_dense.take s.m_element_num

/-- contains(element), with each vector read returning none when out of
bounds.  Mirrors the short-circuit of
dense_idx < m_element_num && m_dense[dense_idx] == element. -/
def contains? (s : SparseSetValue) (element : Nat) : Option Bool :=
  if element < s.m_capacity then do
    let dense_idx ← s.m_sparse[element]?
    if dense_idx < s.m_element_num then do
      let d ← s.m_dense[dense_idx]?
      pure (decide (d = element))
    else
      pure false
  else
    pure false

/-- Total contains; under the representation invariant contains? is
always some, so the default is never used. -/
def contains (s : SparseSetValue) (element : Nat) : Bool :=
  (s.contains? element).getD false

/-- add(element) with Option-returning vector reads.  The absence test
mirrors dense_idx >= m_element_num || m_dense[dense_idx] != element
with its short-circuit. -/
def add? (s : SparseSetValue) (element : Nat) : Option SparseSetValue :=
  if element < s.m_capacity then do
    let dense_idx ← s.m_sparse[element]?
    let n := s.m_element_num
    let absent ←
      if s.m_element_num ≤ dense_idx then
        pure true
      else do
        let d ← s.m_dense[dense_idx]?
        pure (decide (d ≠ element))
    if absent then
      pure { s with m_sparse := s.m_sparse.set element n,
                    m_dense := s.m_dense.set n element,
                    m_element_num := n + 1 }
    else
      pure s
  else
    pure s

/-- Total add. -/
def add (s : SparseSetValue) (element : Nat) : SparseSetValue :=
  (s.add? element).getD s

/-- remove(element) with Option-returning vector reads.  The presence
test mirrors dense_idx < n && m_dense[dense_idx] == element; on success
the last dense entry is swapped into the freed slot. -/
def remove? (s : SparseSetValue) (element : Nat) : Option SparseSetValue :=
  if element < s.m_capacity then do
    let dense_idx ← s.m_sparse[element]?
    let n := s.m_element_num
    let present ←
      if dense_idx < n then do
        let d ← s.m_dense[dense_idx]?
        pure (decide (d = element))
      else
        pure false
    if present then do
      let last_element ← s.m_dense[n - 1]?
      pure { s with m_element_num := n - 1,
                    m_dense := s.m_dense.set dense_idx last_element,
                    m_sparse := s.m_sparse.set last_element dense_idx }
    else
      pure s
  else
    pure s

/-- Total remove. -/
def remove (s : SparseSetValue) (element : Nat) : SparseSetValue :=
  (s.remove? element).getD s

/-- leq(other): false immediately if this size exceeds the other size,
otherwise every element of the dense range must be contained in other. -/
def leq (s other : SparseSetValue) : Bool :=
  if other.m_element_num < s.m_element_num then
    false
  else
    s.elements.all (fun e => other.contains e)

/-- equals(other): equal sizes and leq. -/
def equals (s other : SparseSetValue) : Bool :=
  decide (s.m_element_num = other.m_element_num) && s.leq other

/-- std::vector::resize semantics on a list of naturals: truncate or
pad with value-initialized (zero) entries up to length n. -/
def vresize (l : List Nat) (n : Nat) : List Nat :=
  l.take n ++ List.replicate (n - l.length) 0

/-- The storage-growth step at the head of join_with: if the other
capacity is larger, resize both vectors and take the larger capacity. -/
def grow (s other : SparseSetValue) : SparseSetValue :=
  if s.m_capacity < other.m_capacity then
    { s with m_dense := vresize s.m_dense other.m_capacity,
             m_sparse := vresize s.m_sparse other.m_capacity,
             m_capacity := other.m_capacity }
  else
    s

/-- Adding a list of elements in order (the range-for over other). -/
def addAll? (s : SparseSetValue) : List Nat → Option SparseSetValue
  | [] => some s
  | e :: rest => do
      let s' ← s.add? e
      addAll? s' rest

/-- join_with(other): grow storage if needed, then add every element of
other; returns kind Value. -/
def join_with? (s other : SparseSetValue) :
    Option (SparseSetValue × AbstractValueKind) := do
  let s' ← addAll? (s.grow other) other.elements
  pure (s', AbstractValueKind.Value)

/-- Total join_with. -/
def join_with (s other : SparseSetValue) : SparseSetValue × AbstractValueKind :=
  (s.join_with? other).getD (s, AbstractValueKind.Value)

/-- widen_with(other): delegates to join_with. -/
def widen_with? (s other : SparseSetValue) :
    Option (SparseSetValue × AbstractValueKind) :=
  s.join_with? other

/-- Total widen_with: delegates to join_with. -/
def widen_with (s other : SparseSetValue) : SparseSetValue × AbstractValueKind :=
  s.join_with other

/-- The in-place walk of meet_with: position i scans the dense range;
an element absent from other is removed (swap-with-last refills slot i,
which is then re-examined), otherwise i advances.  Each iteration
either decreases m_element_num or increases i, so the fuel
m_element_num - i bounds the number of iterations; exhausted fuel with
the walk unfinished yields none (unreachable under the invariant). -/
def meet_loop? (other : SparseSetValue) :
    Nat → SparseSetValue → Nat → Option SparseSetValue
  | 0, s, i => if i < s.m_element_num then none else some s
  | fuel + 1, s, i =>
    if i < s.m_element_num then do
      let e ← s.m_dense[i]?
      let c ← other.contains? e
      if c then
        meet_loop? other fuel s (i + 1)
      else do
        let s' ← s.remove? e
        meet_loop? other fuel s' i
    else
      some s

/-- meet_with(other): run the in-place walk from position 0; returns
kind Value. -/
def meet_with? (s other : SparseSetValue) :
    Option (SparseSetValue × AbstractValueKind) := do
  let s' ← meet_loop? other s.m_element_num s 0
  pure (s', AbstractValueKind.Value)

/-- Total meet_with. -/
def meet_with (s other : SparseSetValue) : SparseSetValue × AbstractValueKind :=
  (s.meet_with? other).getD (s, AbstractValueKind.Value)

/-- narrow_with(other): delegates to meet_with. -/
def narrow_with? (s other : SparseSetValue) :
    Option (SparseSetValue × AbstractValueKind) :=
  s.meet_with? other

/-- Total narrow_with: delegates to meet_with. -/
def narrow_with (s other : SparseSetValue) : SparseSetValue × AbstractValueKind :=
  s.meet_with other

/-- The dense entry at position i (0 when out of range). -/
def dAt (s : SparseSetValue) (i : Nat) : Nat := s.m_dense.getD i 0

/-- The sparse entry for element e (0 when out of range). -/
def sAt (s : SparseSetValue) (e : Nat) : Nat := s.m_sparse.getD e 0

/-- Representation invariant: both vectors have length m_capacity,
m_element_num ≤ m_capacity, and every valid dense entry is a universe
element whose sparse entry points back at its dense position. -/
def wf (s : SparseSetValue) : Prop :=
  s.m_dense.length = s.m_capacity ∧
  s.m_sparse.length = s.m_capacity ∧
  s.m_element_num ≤ s.m_capacity ∧
  ∀ i, i < s.m_element_num →
    s.m_dense.getD i 0 < s.m_capacity ∧
    s.m_sparse.getD (s.m_dense.getD i 0) 0 = i

instance (s : SparseSetValue) : Decidable (s.wf) := by
  unfold wf
  exact inferInstance

/-- Concrete example state over universe size 8 holding {1, 3, 5}. -/
def exA : SparseSetValue := ⟨8, 3, [1, 3, 5, 0, 0, 0, 0, 0], [0, 0, 0, 1, 0, 2, 0, 0]⟩

/-- Concrete example state over universe size 8 holding {3, 5, 7}. -/
def exB : SparseSetValue := ⟨8, 3, [3, 5, 7, 0, 0, 0, 0, 0], [0, 0, 0, 0, 0, 1, 0, 2]⟩

/-- Concrete example state over universe size 4 holding {2}. -/
def exC : SparseSetValue := ⟨4, 1, [2, 0, 0, 0], [0, 0, 0, 0]⟩

/-! ### Basic indexing lemmas -/

theorem getD_some {l : List Nat} {i : Nat} (h : i < l.length) :
    l[i]? = some (l.getD i 0) := by
  simp [List.getD_eq_getElem?_getD, List.getElem?_eq_getElem h]

theorem getD_set_self {l : List Nat} {i a : Nat} (h : i < l.length) :
    (l.set i a).getD i 0 = a := by
  simp [List.getD_eq_getElem?_getD, List.getElem?_set_self h]

theorem getD_set_ne {l : List Nat} {i j a : Nat} (h : i ≠ j) :
    (l.set i a).getD j 0 = l.getD j 0 := by
  simp [List.getD_eq_getElem?_getD, List.getElem?_set_ne h]

/-! ### Invariant accessors -/

theorem wf.dense_len {s : SparseSetValue} (h : s.wf) :
    s.m_dense.length = s.m_capacity := h.1

theorem wf.sparse_len {s : SparseSetValue} (h : s.wf) :
    s.m_sparse.length = s.m_capacity := h.2.1

theorem wf.count_le {s : SparseSetValue} (h : s.wf) :
    s.m_element_num ≤ s.m_capacity := h.2.2.1

theorem wf.at_lt {s : SparseSetValue} (h : s.wf) {i : Nat}
    (hi : i < s.m_element_num) : s.dAt i < s.m_capacity :=
  (h.2.2.2 i hi).1

theorem wf.sAt_dAt {s : SparseSetValue} (h : s.wf) {i : Nat}
    (hi : i < s.m_element_num) : s.sAt (s.dAt i) = i :=
  (h.2.2.2 i hi).2

/-! ### contains -/

theorem contains_eq {s : SparseSetValue} (h : s.wf) (e : Nat) :
    s.contains e =
      (decide (e < s.m_capacity) && (decide (s.sAt e < s.m_element_num) &&
        decide (s.dAt (s.sAt e) = e))) := by
  by_cases hcap : e < s.m_capacity
  · have hsp : s.m_sparse[e]? = some (s.sAt e) :=
      getD_some (by rw [h.sparse_len]; exact hcap)
    by_cases hidx : s.sAt e < s.m_element_num
    · have hd : s.m_dense[s.sAt e]? = some (s.dAt (s.sAt e)) :=
        getD_some (by rw [h.dense_len]; exact lt_of_lt_of_le hidx h.count_le)
      generalize hgd : s.dAt (s.sAt e) = d at hd ⊢
      generalize hgs : s.sAt e = dx at hsp hidx hd ⊢
      unfold contains contains?
      rw [if_pos hcap, hsp]
      simp [hidx, hd, hcap]
    · generalize hgs : s.sAt e = dx at hsp hidx ⊢
      unfold contains contains?
      rw [if_pos hcap, hsp]
      simp [hidx, hcap]
  · unfold contains contains?
    simp [hcap]

theorem contains_true_iff {s : SparseSetValue} (h : s.wf) {e : Nat} :
    s.contains e = true ↔
      e < s.m_capacity ∧ s.sAt e < s.m_element_num ∧ s.dAt (s.sAt e) = e := by
  rw [contains_eq h]
  simp [and_assoc]

theorem contains_of_at {s : SparseSetValue} (h : s.wf) {i : Nat}
    (hi : i < s.m_element_num) : s.contains (s.dAt i) = true := by
  rw [contains_eq h]
  simp [h.at_lt hi, h.sAt_dAt hi, hi]

theorem full_contains {s : SparseSetValue} (h : s.wf)
    (hfull : s.m_capacity ≤ s.m_element_num) {e : Nat}
    (he : e < s.m_capacity) : s.contains e = true := by
  have hcnt : s.m_element_num = s.m_capacity := le_antisymm h.count_le hfull
  have hlt : ∀ i : Fin s.m_capacity, s.dAt i < s.m_capacity := fun i =>
    h.at_lt (by rw [hcnt]; exact i.2)
  have hinj : Function.Injective (fun i : Fin s.m_capacity => (⟨s.dAt i, hlt i⟩ : Fin s.m_capacity)) := by
    intro i j hij
    have h1 : s.dAt i = s.dAt j := congrArg Fin.val hij
    have h2 := h.sAt_dAt (i := i) (by rw [hcnt]; exact i.2)
    have h3 := h.sAt_dAt (i := j) (by rw [hcnt]; exact j.2)
    apply Fin.ext
    rw [← h2, ← h3, h1]
  have hsurj := Finite.injective_iff_surjective.mp hinj
  obtain ⟨i, hie⟩ := hsurj ⟨e, he⟩
  have hde : s.dAt i = e := congrArg Fin.val hie
  rw [← hde]
  exact contains_of_at h (by rw [hcnt]; exact i.2)

theorem count_lt_of_not_contains {s : SparseSetValue} (h : s.wf) {e : Nat}
    (he : e < s.m_capacity) (hc : s.contains e = false) :
    s.m_element_num < s.m_capacity := by
  by_contra hge
  have := full_contains h (Nat.le_of_not_lt hge) he
  rw [hc] at this
  exact Bool.false_ne_true this

/-! ### add -/

theorem add?_of_cap {s : SparseSetValue} {e : Nat} (hcap : s.m_capacity ≤ e) :
    s.add? e = some s := by
  unfold add?
  rw [if_neg (Nat.not_lt.mpr hcap)]
  rfl

theorem add?_of_mem {s : SparseSetValue} (h : s.wf) {e : Nat}
    (hc : s.contains e = true) : s.add? e = some s := by
  obtain ⟨hcap, hidx, hde⟩ := (contains_true_iff h).mp hc
  have hsp : s.m_sparse[e]? = some (s.sAt e) :=
    getD_some (by rw [h.sparse_len]; exact hcap)
  have hdd : s.m_dense[(s.sAt e)]? = some e := by
    rw [getD_some (by rw [h.dense_len]; exact lt_of_lt_of_le hidx h.count_le)]
    exact congrArg some hde
  unfold add?
  rw [if_pos hcap, hsp]
  simp [hdd, Nat.not_le.mpr hidx]

theorem add?_of_new {s : SparseSetValue} (h : s.wf) {e : Nat}
    (hcap : e < s.m_capacity) (hc : s.contains e = false) :
    s.add? e = some ⟨s.m_capacity, s.m_element_num + 1,
      s.m_dense.set s.m_element_num e, s.m_sparse.set e s.m_element_num⟩ := by
  have hsp : s.m_sparse[e]? = some (s.sAt e) :=
    getD_some (by rw [h.sparse_len]; exact hcap)
  have hnc : ¬ (s.sAt e < s.m_element_num ∧ s.dAt (s.sAt e) = e) := by
    intro hand
    have := (contains_true_iff h).mpr ⟨hcap, hand.1, hand.2⟩
    rw [hc] at this
    exact Bool.false_ne_true this
  unfold add?
  rw [if_pos hcap, hsp]
  by_cases hidx : s.sAt e < s.m_element_num
  · have hne : s.dAt (s.sAt e) ≠ e := fun hh => hnc ⟨hidx, hh⟩
    have hdd : s.m_dense[(s.sAt e)]? = some (s.dAt (s.sAt e)) :=
      getD_some (by rw [h.dense_len]; exact lt_of_lt_of_le hidx h.count_le)
    generalize hgd : s.dAt (s.sAt e) = d at hdd hne
    simp [hdd, Nat.not_le.mpr hidx, hne]
  · simp [Nat.le_of_not_lt hidx]

theorem add?_eq_some {s : SparseSetValue} (h : s.wf) (e : Nat) :
    s.add? e = some (s.add e) := by
  have hex : ∃ x, s.add? e = some x := by
    rcases Nat.lt_or_ge e s.m_capacity with hcap | hcap
    · cases hb : s.contains e
      · exact ⟨_, add?_of_new h hcap hb⟩
      · exact ⟨_, add?_of_mem h hb⟩
    · exact ⟨_, add?_of_cap hcap⟩
  obtain ⟨x, hx⟩ := hex
  unfold add
  rw [hx]
  rfl

theorem add_of_cap {s : SparseSetValue} {e : Nat} (hcap : s.m_capacity ≤ e) :
    s.add e = s := by
  unfold add
  rw [add?_of_cap hcap]
  rfl

theorem add_of_mem {s : SparseSetValue} (h : s.wf) {e : Nat}
    (hc : s.contains e = true) : s.add e = s := by
  unfold add
  rw [add?_of_mem h hc]
  rfl

theorem add_of_new {s : SparseSetValue} (h : s.wf) {e : Nat}
    (hcap : e < s.m_capacity) (hc : s.contains e = false) :
    s.add e = ⟨s.m_capacity, s.m_element_num + 1,
      s.m_dense.set s.m_element_num e, s.m_sparse.set e s.m_element_num⟩ := by
  unfold add
  rw [add?_of_new h hcap hc]
  rfl

theorem wf_add {s : SparseSetValue} (h : s.wf) (e : Nat) : (s.add e).wf := by
  rcases Nat.lt_or_ge e s.m_capacity with hcap | hcap
  swap
  · rw [add_of_cap hcap]; exact h
  cases hb : s.contains e
  case true => rw [add_of_mem h hb]; exact h
  case false =>
    rw [add_of_new h hcap hb]
    have hlt : s.m_element_num < s.m_capacity :=
      count_lt_of_not_contains h hcap hb
    have hnlen : s.m_element_num < s.m_dense.length := by
      rw [h.dense_len]; exact hlt
    refine ⟨by simp [h.dense_len], by simp [h.sparse_len], hlt, ?_⟩
    intro i hi
    rcases Nat.lt_or_ge i s.m_element_num with hi' | hi'
    · have hne_n : s.m_element_num ≠ i := fun hh => absurd hh.symm (Nat.ne_of_lt hi')
      have hd_old : (s.m_dense.set s.m_element_num e).getD i 0 = s.dAt i :=
        getD_set_ne hne_n
      have hde : s.dAt i ≠ e := by
        intro hh
        have hct := contains_of_at h hi'
        rw [hh, hb] at hct
        exact Bool.false_ne_true hct
      refine ⟨?_, ?_⟩
      · rw [hd_old]; exact h.at_lt hi'
      · rw [hd_old, getD_set_ne (fun hh => hde hh.symm)]
        exact h.sAt_dAt hi'
    · have hieq : i = s.m_element_num :=
        Nat.le_antisymm (Nat.lt_succ_iff.mp hi) hi'
      subst hieq
      refine ⟨?_, ?_⟩
      · rw [getD_set_self hnlen]; exact hcap
      · rw [getD_set_self hnlen,
            getD_set_self (by rw [h.sparse_len]; exact hcap)]

theorem contains_add {s : SparseSetValue} (h : s.wf) (e x : Nat) :
    (s.add e).contains x =
      (s.contains x || (decide (x = e) && decide (e < s.m_capacity))) := by
  rcases Nat.lt_or_ge e s.m_capacity with hcap | hcap
  swap
  · rw [add_of_cap hcap]
    simp [Nat.not_lt.mpr hcap]
  cases hb : s.contains e
  case true =>
    rw [add_of_mem h hb]
    by_cases hxe : x = e
    · subst hxe
      simp [hb, hcap]
    · simp [hxe]
  case false =>
    have hlt : s.m_element_num < s.m_capacity :=
      count_lt_of_not_contains h hcap hb
    have hnlen : s.m_element_num < s.m_dense.length := by
      rw [h.dense_len]; exact hlt
    have hwf' : (s.add e).wf := wf_add h e
    rw [add_of_new h hcap hb] at hwf' ⊢
    rw [contains_eq hwf' x, contains_eq h x, Bool.eq_iff_iff]
    simp only [sAt, dAt, Bool.and_eq_true, Bool.or_eq_true, decide_eq_true_iff]
    by_cases hxe : x = e
    · subst hxe
      have h1 : (s.m_sparse.set x s.m_element_num).getD x 0 = s.m_element_num :=
        getD_set_self (by rw [h.sparse_len]; exact hcap)
      have h2 : (s.m_dense.set s.m_element_num x).getD s.m_element_num 0 = x :=
        getD_set_self hnlen
      simp only [h1, h2]
      exact iff_of_true ⟨hcap, Nat.lt_succ_self _, trivial⟩
        (Or.inr ⟨trivial, hcap⟩)
    · have hsx : (s.m_sparse.set e s.m_element_num).getD x 0 =
          s.m_sparse.getD x 0 := getD_set_ne (fun hh => hxe hh.symm)
      simp only [hsx]
      rcases Nat.lt_trichotomy (s.m_sparse.getD x 0) s.m_element_num with
        hcx | hcx | hcx
      · have hdx : (s.m_dense.set s.m_element_num e).getD
            (s.m_sparse.getD x 0) 0 = s.m_dense.getD (s.m_sparse.getD x 0) 0 :=
          getD_set_ne (fun hh => absurd hh.symm (Nat.ne_of_lt hcx))
        simp only [hdx]
        constructor
        · rintro ⟨ha, _, hc⟩
          exact Or.inl ⟨ha, hcx, hc⟩
        · rintro (⟨ha, _, hc⟩ | ⟨hq, _⟩)
          · exact ⟨ha, Nat.lt_succ_of_lt hcx, hc⟩
          · exact absurd hq hxe
      · have hdn : (s.m_dense.set s.m_element_num e).getD
            (s.m_sparse.getD x 0) 0 = e := by
          rw [hcx]; exact getD_set_self hnlen
        simp only [hdn]
        constructor
        · rintro ⟨_, _, hc⟩
          exact absurd hc.symm hxe
        · rintro (⟨_, hb', _⟩ | ⟨hq, _⟩)
          · exact absurd hb' (by omega)
          · exact absurd hq hxe
      · constructor
        · rintro ⟨_, hb', _⟩
          exact absurd hb' (by omega)
        · rintro (⟨_, hb', _⟩ | ⟨hq, _⟩)
          · exact absurd hb' (by omega)
          · exact absurd hq hxe

/-! ### remove -/

theorem contains_of_cap {s : SparseSetValue} {e : Nat}
    (hcap : s.m_capacity ≤ e) : s.contains e = false := by
  unfold contains contains?
  rw [if_neg (Nat.not_lt.mpr hcap)]
  rfl

theorem remove?_of_cap {s : SparseSetValue} {e : Nat}
    (hcap : s.m_capacity ≤ e) : s.remove? e = some s := by
  unfold remove?
  rw [if_neg (Nat.not_lt.mpr hcap)]
  rfl

theorem remove?_of_absent {s : SparseSetValue} (h : s.wf) {e : Nat}
    (hc : s.contains e = false) : s.remove? e = some s := by
  rcases Nat.lt_or_ge e s.m_capacity with hcap | hcap
  swap
  · exact remove?_of_cap hcap
  have hsp : s.m_sparse[e]? = some (s.sAt e) :=
    getD_some (by rw [h.sparse_len]; exact hcap)
  have hnc : ¬ (s.sAt e < s.m_element_num ∧ s.dAt (s.sAt e) = e) := by
    intro hand
    have := (contains_true_iff h).mpr ⟨hcap, hand.1, hand.2⟩
    rw [hc] at this
    exact Bool.false_ne_true this
  unfold remove?
  rw [if_pos hcap, hsp]
  by_cases hidx : s.sAt e < s.m_element_num
  · have hne : s.dAt (s.sAt e) ≠ e := fun hh => hnc ⟨hidx, hh⟩
    have hdd : s.m_dense[(s.sAt e)]? = some (s.dAt (s.sAt e)) :=
      getD_some (by rw [h.dense_len]; exact lt_of_lt_of_le hidx h.count_le)
    generalize hgd : s.dAt (s.sAt e) = d at hdd hne
    simp [hdd, hidx, hne]
  · simp [hidx]

theorem remove?_of_mem {s : SparseSetValue} (h : s.wf) {e : Nat}
    (hc : s.contains e = true) :
    s.remove? e = some ⟨s.m_capacity, s.m_element_num - 1,
      s.m_dense.set (s.sAt e) (s.dAt (s.m_element_num - 1)),
      s.m_sparse.set (s.dAt (s.m_element_num - 1)) (s.sAt e)⟩ := by
  obtain ⟨hcap, hidx, hde⟩ := (contains_true_iff h).mp hc
  have hsp : s.m_sparse[e]? = some (s.sAt e) :=
    getD_some (by rw [h.sparse_len]; exact hcap)
  have hdd : s.m_dense[(s.sAt e)]? = some e := by
    rw [getD_some (by rw [h.dense_len]; exact lt_of_lt_of_le hidx h.count_le)]
    exact congrArg some hde
  have hlast : s.m_dense[(s.m_element_num - 1)]? =
      some (s.dAt (s.m_element_num - 1)) :=
    getD_some (by
      rw [h.dense_len]
      have := h.count_le
      omega)
  unfold remove?
  rw [if_pos hcap, hsp]
  simp [hdd, hidx, hlast]

theorem remove?_eq_some {s : SparseSetValue} (h : s.wf) (e : Nat) :
    s.remove? e = some (s.remove e) := by
  have hex : ∃ x, s.remove? e = some x := by
    rcases Nat.lt_or_ge e s.m_capacity with hcap | hcap
    · cases hb : s.contains e
      · exact ⟨_, remove?_of_absent h hb⟩
      · exact ⟨_, remove?_of_mem h hb⟩
    · exact ⟨_, remove?_of_cap hcap⟩
  obtain ⟨x, hx⟩ := hex
  unfold remove
  rw [hx]
  rfl

theorem remove_of_cap {s : SparseSetValue} {e : Nat}
    (hcap : s.m_capacity ≤ e) : s.remove e = s := by
  unfold remove
  rw [remove?_of_cap hcap]
  rfl

theorem remove_of_absent {s : SparseSetValue} (h : s.wf) {e : Nat}
    (hc : s.contains e = false) : s.remove e = s := by
  unfold remove
  rw [remove?_of_absent h hc]
  rfl

theorem remove_of_mem {s : SparseSetValue} (h : s.wf) {e : Nat}
    (hc : s.contains e = true) :
    s.remove e = ⟨s.m_capacity, s.m_element_num - 1,
      s.m_dense.set (s.sAt e) (s.dAt (s.m_element_num - 1)),
      s.m_sparse.set (s.dAt (s.m_element_num - 1)) (s.sAt e)⟩ := by
  unfold remove
  rw [remove?_of_mem h hc]
  rfl

theorem wf_remove {s : SparseSetValue} (h : s.wf) (e : Nat) :
    (s.remove e).wf := by
  rcases Nat.lt_or_ge e s.m_capacity with hcap | hcap
  swap
  · rw [remove_of_cap hcap]; exact h
  cases hb : s.contains e
  case false => rw [remove_of_absent h hb]; exact h
  case true =>
    obtain ⟨_, hidx, hde⟩ := (contains_true_iff h).mp hb
    have hn1 : s.m_element_num - 1 < s.m_element_num := by omega
    have hlast_lt : s.dAt (s.m_element_num - 1) < s.m_capacity := h.at_lt hn1
    have hsl : s.sAt (s.dAt (s.m_element_num - 1)) = s.m_element_num - 1 :=
      h.sAt_dAt hn1
    have hdxlen : s.sAt e < s.m_dense.length := by
      rw [h.dense_len]; exact lt_of_lt_of_le hidx h.count_le
    have hlastlen : s.dAt (s.m_element_num - 1) < s.m_sparse.length := by
      rw [h.sparse_len]; exact hlast_lt
    have hcnt : s.m_element_num ≤ s.m_capacity := h.count_le
    rw [remove_of_mem h hb]
    refine ⟨by simp [h.dense_len], by simp [h.sparse_len], ?_, ?_⟩
    · show s.m_element_num - 1 ≤ s.m_capacity
      omega
    · intro i hi
      replace hi : i < s.m_element_num - 1 := hi
      show (s.m_dense.set (s.sAt e) (s.dAt (s.m_element_num - 1))).getD i 0 <
          s.m_capacity ∧
        (s.m_sparse.set (s.dAt (s.m_element_num - 1)) (s.sAt e)).getD
          ((s.m_dense.set (s.sAt e) (s.dAt (s.m_element_num - 1))).getD i 0)
          0 = i
      by_cases hieq : i = s.sAt e
      · rw [hieq, getD_set_self hdxlen]
        exact ⟨hlast_lt, getD_set_self hlastlen⟩
      · have hd_old : (s.m_dense.set (s.sAt e)
            (s.dAt (s.m_element_num - 1))).getD i 0 = s.dAt i :=
          getD_set_ne (fun hh => hieq hh.symm)
        rw [hd_old]
        have hi_lt : i < s.m_element_num := by omega
        refine ⟨h.at_lt hi_lt, ?_⟩
        have hne_last : s.dAt (s.m_element_num - 1) ≠ s.dAt i := by
          intro hh
          have h1 := h.sAt_dAt hi_lt
          rw [← hh, hsl] at h1
          omega
        rw [getD_set_ne hne_last]
        exact h.sAt_dAt hi_lt

theorem contains_remove {s : SparseSetValue} (h : s.wf) (e x : Nat) :
    (s.remove e).contains x = (s.contains x && !(decide (x = e))) := by
  rcases Nat.lt_or_ge e s.m_capacity with hcap | hcap
  swap
  · rw [remove_of_cap hcap]
    by_cases hxe : x = e
    · subst hxe
      simp [contains_of_cap hcap]
    · simp [hxe]
  cases hb : s.contains e
  case false =>
    rw [remove_of_absent h hb]
    by_cases hxe : x = e
    · subst hxe
      simp [hb]
    · simp [hxe]
  case true =>
    have hwf' : (s.remove e).wf := wf_remove h e
    obtain ⟨hecap, hidx0, hde0⟩ := (contains_true_iff h).mp hb
    have hidx : s.m_sparse.getD e 0 < s.m_element_num := hidx0
    have hde' : s.m_dense.getD (s.m_sparse.getD e 0) 0 = e := hde0
    have hn1 : s.m_element_num - 1 < s.m_element_num := by omega
    have hlast_lt : s.m_dense.getD (s.m_element_num - 1) 0 < s.m_capacity :=
      h.at_lt hn1
    have hsl : s.m_sparse.getD (s.m_dense.getD (s.m_element_num - 1) 0) 0 =
        s.m_element_num - 1 := h.sAt_dAt hn1
    have hdxlen : s.m_sparse.getD e 0 < s.m_dense.length := by
      rw [h.dense_len]; exact lt_of_lt_of_le hidx h.count_le
    have hlastlen : s.m_dense.getD (s.m_element_num - 1) 0 <
        s.m_sparse.length := by
      rw [h.sparse_len]; exact hlast_lt
    rw [remove_of_mem h hb] at hwf' ⊢
    rw [contains_eq hwf' x, contains_eq h x, Bool.eq_iff_iff]
    simp only [sAt, dAt, Bool.and_eq_true, Bool.not_eq_true',
      decide_eq_true_iff, decide_eq_false_iff_not]
    by_cases hxlast : x = s.m_dense.getD (s.m_element_num - 1) 0
    · have hT1 : (s.m_sparse.set (s.m_dense.getD (s.m_element_num - 1) 0)
          (s.m_sparse.getD e 0)).getD x 0 = s.m_sparse.getD e 0 := by
        rw [hxlast]
        exact getD_set_self hlastlen
      simp only [hT1]
      by_cases hxe : x = e
      · subst hxe
        have hsx_n1 : s.m_sparse.getD x 0 = s.m_element_num - 1 := by
          rw [hxlast]
          exact hsl
        refine iff_of_false ?_ ?_
        · rintro ⟨_, hlt, _⟩
          rw [hsx_n1] at hlt
          omega
        · rintro ⟨_, hne⟩
          exact hne rfl
      · have hdxne : s.m_sparse.getD e 0 ≠ s.m_element_num - 1 := by
          intro hh
          rw [hh] at hde'
          exact hxe (hxlast.trans hde')
        have hdxlt : s.m_sparse.getD e 0 < s.m_element_num - 1 := by omega
        have hT2 : (s.m_dense.set (s.m_sparse.getD e 0)
            (s.m_dense.getD (s.m_element_num - 1) 0)).getD
            (s.m_sparse.getD e 0) 0 =
            s.m_dense.getD (s.m_element_num - 1) 0 :=
          getD_set_self hdxlen
        refine iff_of_true
          ⟨by rw [hxlast]; exact hlast_lt, hdxlt, by rw [hT2]; exact hxlast.symm⟩
          ⟨⟨by rw [hxlast]; exact hlast_lt, ?_, ?_⟩, hxe⟩
        · rw [hxlast, hsl]
          omega
        · rw [hxlast, hsl]
    · have hT1 : (s.m_sparse.set (s.m_dense.getD (s.m_element_num - 1) 0)
          (s.m_sparse.getD e 0)).getD x 0 = s.m_sparse.getD x 0 :=
        getD_set_ne (fun hh => hxlast hh.symm)
      simp only [hT1]
      by_cases hxe : x = e
      · subst hxe
        refine iff_of_false ?_ ?_
        · rintro ⟨_, _, heqx⟩
          rw [getD_set_self hdxlen] at heqx
          exact hxlast heqx.symm
        · rintro ⟨_, hne⟩
          exact hne rfl
      · constructor
        · rintro ⟨hxcap, hlt, heqx⟩
          have hsneq : s.m_sparse.getD x 0 ≠ s.m_sparse.getD e 0 := by
            intro hh
            rw [hh, getD_set_self hdxlen] at heqx
            exact hxlast heqx.symm
          rw [getD_set_ne (fun hh => hsneq hh.symm)] at heqx
          exact ⟨⟨hxcap, by omega, heqx⟩, hxe⟩
        · rintro ⟨⟨hxcap, hlt, heqx⟩, _⟩
          have hsne_dx : s.m_sparse.getD x 0 ≠ s.m_sparse.getD e 0 := by
            intro hh
            rw [hh] at heqx
            exact hxe (heqx.symm.trans hde')
          have hsne_n1 : s.m_sparse.getD x 0 ≠ s.m_element_num - 1 := by
            intro hh
            rw [hh] at heqx
            exact hxlast heqx.symm
          refine ⟨hxcap, by omega, ?_⟩
          rw [getD_set_ne (fun hh => hsne_dx hh.symm)]
          exact heqx

/-! ### elements and ordering -/

theorem length_elements {s : SparseSetValue} (h : s.wf) :
    s.elements.length = s.m_element_num := by
  unfold elements
  rw [List.length_take, h.dense_len]
  exact Nat.min_eq_left h.count_le

theorem elements_eq_map {s : SparseSetValue} (h : s.wf) :
    s.elements = (List.range s.m_element_num).map s.dAt := by
  apply List.ext_getElem?
  intro i
  by_cases hi : i < s.m_element_num
  · have hlen : i < s.m_dense.length := by
      rw [h.dense_len]; exact lt_of_lt_of_le hi h.count_le
    simp only [elements]
    rw [List.getElem?_take_of_lt hi, getD_some hlen,
        List.getElem?_map, List.getElem?_range hi]
    rfl
  · have h1 : s.elements.length ≤ i := by
      rw [length_elements h]; omega
    have h2 : ((List.range s.m_element_num).map s.dAt).length ≤ i := by
      rw [List.length_map, List.length_range]; omega
    rw [List.getElem?_eq_none h1, List.getElem?_eq_none h2]

theorem mem_elements_iff {s : SparseSetValue} (h : s.wf) {x : Nat} :
    x ∈ s.elements ↔ s.contains x = true := by
  rw [elements_eq_map h]
  constructor
  · intro hx
    obtain ⟨i, hi, hix⟩ := List.mem_map.mp hx
    rw [← hix]
    exact contains_of_at h (List.mem_range.mp hi)
  · intro hx
    obtain ⟨hcap, hidx, hdx⟩ := (contains_true_iff h).mp hx
    exact List.mem_map.mpr ⟨s.sAt x, List.mem_range.mpr hidx, hdx⟩

theorem nodup_elements {s : SparseSetValue} (h : s.wf) : s.elements.Nodup := by
  rw [elements_eq_map h]
  refine List.Nodup.map_on ?_ (List.nodup_range _)
  intro i hi j hj hij
  have h1 := h.sAt_dAt (List.mem_range.mp hi)
  have h2 := h.sAt_dAt (List.mem_range.mp hj)
  rw [← h1, ← h2, hij]

theorem subset_count_le {A B : SparseSetValue} (hA : A.wf) (hB : B.wf)
    (hsub : ∀ x, A.contains x = true → B.contains x = true) :
    A.m_element_num ≤ B.m_element_num := by
  have hfs : A.elements.toFinset ⊆ B.elements.toFinset := by
    intro x hx
    rw [List.mem_toFinset] at hx ⊢
    exact (mem_elements_iff hB).mpr (hsub x ((mem_elements_iff hA).mp hx))
  have hcard := Finset.card_le_card hfs
  rw [List.toFinset_card_of_nodup (nodup_elements hA),
      List.toFinset_card_of_nodup (nodup_elements hB),
      length_elements hA, length_elements hB] at hcard
  exact hcard

theorem leq_true_iff {A B : SparseSetValue} (hA : A.wf) (hB : B.wf) :
    A.leq B = true ↔ ∀ x, A.contains x = true → B.contains x = true := by
  unfold leq
  constructor
  · intro hl x hx
    by_cases hcmp : B.m_element_num < A.m_element_num
    · rw [if_pos hcmp] at hl
      exact absurd hl Bool.false_ne_true
    · rw [if_neg hcmp] at hl
      exact List.all_eq_true.mp hl x ((mem_elements_iff hA).mpr hx)
  · intro hsub
    rw [if_neg (Nat.not_lt.mpr (subset_count_le hA hB hsub))]
    refine List.all_eq_true.mpr ?_
    intro x hx
    exact hsub x ((mem_elements_iff hA).mp hx)

/-! ### storage growth and join -/

theorem length_vresize {l : List Nat} {n : Nat} (hn : l.length ≤ n) :
    (vresize l n).length = n := by
  unfold vresize
  rw [List.take_of_length_le hn, List.length_append, List.length_replicate]
  omega

theorem getD_vresize_of_lt {l : List Nat} {n i : Nat} (h : i < l.length)
    (hn : l.length ≤ n) : (vresize l n).getD i 0 = l.getD i 0 := by
  unfold vresize
  rw [List.take_of_length_le hn, List.getD_eq_getElem?_getD,
    List.getElem?_append_left h, ← List.getD_eq_getElem?_getD]

theorem getD_vresize_pad {l : List Nat} {n i : Nat} (h : l.length ≤ i)
    (hn : l.length ≤ n) : (vresize l n).getD i 0 = 0 := by
  unfold vresize
  rw [List.take_of_length_le hn, List.getD_eq_getElem?_getD,
    List.getElem?_append_right h, List.getElem?_replicate]
  split <;> rfl

theorem grow_cap (s other : SparseSetValue) :
    (s.grow other).m_capacity = max s.m_capacity other.m_capacity := by
  unfold grow
  by_cases hc : s.m_capacity < other.m_capacity
  · rw [if_pos hc]
    exact (Nat.max_eq_right (Nat.le_of_lt hc)).symm
  · rw [if_neg hc]
    exact (Nat.max_eq_left (Nat.le_of_not_lt hc)).symm

theorem wf_grow {s : SparseSetValue} (h : s.wf) (other : SparseSetValue) :
    (s.grow other).wf := by
  unfold grow
  by_cases hc : s.m_capacity < other.m_capacity
  swap
  · rw [if_neg hc]; exact h
  rw [if_pos hc]
  have hdlen : s.m_dense.length ≤ other.m_capacity := by
    rw [h.dense_len]; omega
  have hslen : s.m_sparse.length ≤ other.m_capacity := by
    rw [h.sparse_len]; omega
  refine ⟨?_, ?_, ?_, ?_⟩
  · show (vresize s.m_dense other.m_capacity).length = other.m_capacity
    exact length_vresize hdlen
  · show (vresize s.m_sparse other.m_capacity).length = other.m_capacity
    exact length_vresize hslen
  · show s.m_element_num ≤ other.m_capacity
    have := h.count_le
    omega
  · intro i hi
    replace hi : i < s.m_element_num := hi
    have hd : (vresize s.m_dense other.m_capacity).getD i 0 =
        s.m_dense.getD i 0 :=
      getD_vresize_of_lt (by rw [h.dense_len]; exact lt_of_lt_of_le hi h.count_le)
        hdlen
    show (vresize s.m_dense other.m_capacity).getD i 0 < other.m_capacity ∧
      (vresize s.m_sparse other.m_capacity).getD
        ((vresize s.m_dense other.m_capacity).getD i 0) 0 = i
    rw [hd]
    have hval : s.m_dense.getD i 0 < s.m_capacity := h.at_lt hi
    refine ⟨by omega, ?_⟩
    rw [getD_vresize_of_lt (by rw [h.sparse_len]; exact hval) hslen]
    exact h.sAt_dAt hi

theorem contains_grow {s : SparseSetValue} (h : s.wf) (other : SparseSetValue)
    (x : Nat) : (s.grow other).contains x = s.contains x := by
  have hg : (s.grow other).wf := wf_grow h other
  rw [contains_eq hg x, contains_eq h x]
  unfold grow at *
  by_cases hc : s.m_capacity < other.m_capacity
  swap
  · rw [if_neg hc] at *
  rw [if_pos hc] at *
  simp only [sAt, dAt]
  have hdlen : s.m_dense.length ≤ other.m_capacity := by
    rw [h.dense_len]; omega
  have hslen : s.m_sparse.length ≤ other.m_capacity := by
    rw [h.sparse_len]; omega
  by_cases hx1 : x < s.m_capacity
  · have hsx : (vresize s.m_sparse other.m_capacity).getD x 0 =
        s.m_sparse.getD x 0 :=
      getD_vresize_of_lt (by rw [h.sparse_len]; exact hx1) hslen
    simp only [hsx]
    by_cases hx2 : s.m_sparse.getD x 0 < s.m_element_num
    · have hdx : (vresize s.m_dense other.m_capacity).getD
          (s.m_sparse.getD x 0) 0 = s.m_dense.getD (s.m_sparse.getD x 0) 0 :=
        getD_vresize_of_lt
          (by rw [h.dense_len]; exact lt_of_lt_of_le hx2 h.count_le) hdlen
      simp only [hdx]
      simp [hx1, Nat.lt_trans hx1 hc]
    · have hx2' : ¬ s.m_sparse[x]?.getD 0 < s.m_element_num := by
        simpa using hx2
      simp [hx2']
  · have hsx0 : (vresize s.m_sparse other.m_capacity).getD x 0 = 0 :=
      getD_vresize_pad (by rw [h.sparse_len]; omega) hslen
    simp only [hsx0]
    by_cases hcnt : 0 < s.m_element_num
    · have hd0 : (vresize s.m_dense other.m_capacity).getD 0 0 =
          s.m_dense.getD 0 0 :=
        getD_vresize_of_lt
          (by rw [h.dense_len]; exact lt_of_lt_of_le hcnt h.count_le) hdlen
      have hd_lt : s.m_dense.getD 0 0 < s.m_capacity := h.at_lt hcnt
      have hne : ¬ s.m_dense.getD 0 0 = x := by omega
      have hne' : ¬ s.m_dense[0]?.getD 0 = x := by simpa using hne
      simp only [hd0]
      simp [hx1, hne']
    · have hz : s.m_element_num = 0 := by omega
      simp [hx1, hz]

theorem cap_add {s : SparseSetValue} (h : s.wf) (e : Nat) :
    (s.add e).m_capacity = s.m_capacity := by
  rcases Nat.lt_or_ge e s.m_capacity with hcap | hcap
  · cases hb : s.contains e
    · rw [add_of_new h hcap hb]
    · rw [add_of_mem h hb]
  · rw [add_of_cap hcap]

theorem addAll?_spec : ∀ (l : List Nat) (s : SparseSetValue), s.wf →
    (∀ e ∈ l, e < s.m_capacity) →
    ∃ r, addAll? s l = some r ∧ r.wf ∧ r.m_capacity = s.m_capacity ∧
      ∀ x, r.contains x = (s.contains x || decide (x ∈ l))
  | [], s, h, _ => ⟨s, rfl, h, rfl, fun x => by simp⟩
  | e :: rest, s, h, he => by
    have hadd : s.add? e = some (s.add e) := add?_eq_some h e
    have hwf1 : (s.add e).wf := wf_add h e
    have hcap1 : (s.add e).m_capacity = s.m_capacity := cap_add h e
    have hone : ∀ x, (s.add e).contains x =
        (s.contains x || decide (x = e)) := by
      intro x
      rw [contains_add h e x]
      simp [he e (List.mem_cons_self e rest)]
    obtain ⟨r, hr, hrwf, hrcap, hrc⟩ := addAll?_spec rest (s.add e) hwf1 (by
      intro e' he'
      rw [hcap1]
      exact he e' (List.mem_cons_of_mem e he'))
    refine ⟨r, ?_, hrwf, by rw [hrcap, hcap1], ?_⟩
    · show addAll? s (e :: rest) = some r
      unfold addAll?
      rw [hadd]
      simpa using hr
    · intro x
      rw [hrc x, hone x]
      by_cases hx : x = e
      · subst hx
        simp
      · simp [hx]

theorem join_with?_spec {A B : SparseSetValue} (hA : A.wf) (hB : B.wf) :
    ∃ J, A.join_with? B = some (J, AbstractValueKind.Value) ∧ J.wf ∧
      J.m_capacity = max A.m_capacity B.m_capacity ∧
      ∀ x, J.contains x = (A.contains x || B.contains x) := by
  have hg : (A.grow B).wf := wf_grow hA B
  have hgc : (A.grow B).m_capacity = max A.m_capacity B.m_capacity := grow_cap A B
  have hel : ∀ e ∈ B.elements, e < (A.grow B).m_capacity := by
    intro e he
    have hc := (contains_true_iff hB).mp ((mem_elements_iff hB).mp he)
    rw [hgc]
    rcases hc with ⟨h1, _⟩
    omega
  obtain ⟨J, hJ, hJwf, hJcap, hJc⟩ := addAll?_spec B.elements (A.grow B) hg hel
  refine ⟨J, ?_, hJwf, by rw [hJcap, hgc], ?_⟩
  · unfold join_with?
    rw [hJ]
    rfl
  · intro x
    rw [hJc x, contains_grow hA B x]
    have hbx : decide (x ∈ B.elements) = B.contains x := by
      rw [Bool.eq_iff_iff, decide_eq_true_iff]
      exact mem_elements_iff hB
    rw [hbx]

theorem join_with_spec {A B : SparseSetValue} (hA : A.wf) (hB : B.wf) :
    (A.join_with B).1.wf ∧
    (A.join_with B).1.m_capacity = max A.m_capacity B.m_capacity ∧
    (A.join_with B).2 = AbstractValueKind.Value ∧
    ∀ x, (A.join_with B).1.contains x = (A.contains x || B.contains x) := by
  obtain ⟨J, hJ, hJwf, hJcap, hJc⟩ := join_with?_spec hA hB
  have heq : A.join_with B = (J, AbstractValueKind.Value) := by
    unfold join_with
    rw [hJ]
    rfl
  rw [heq]
  exact ⟨hJwf, hJcap, rfl, hJc⟩

/-! ### meet -/

theorem contains?_eq_some {s : SparseSetValue} (h : s.wf) (e : Nat) :
    s.contains? e = some (s.contains e) := by
  have hex : ∃ b, s.contains? e = some b := by
    unfold contains?
    by_cases hcap : e < s.m_capacity
    · have hsp : s.m_sparse[e]? = some (s.sAt e) :=
        getD_some (by rw [h.sparse_len]; exact hcap)
      rw [if_pos hcap, hsp]
      by_cases hidx : s.sAt e < s.m_element_num
      · have hd : s.m_dense[(s.sAt e)]? = some (s.dAt (s.sAt e)) :=
          getD_some (by rw [h.dense_len]; exact lt_of_lt_of_le hidx h.count_le)
        exact ⟨decide (s.dAt (s.sAt e) = e), by simp [hidx, hd]⟩
      · exact ⟨false, by simp [hidx]⟩
    · exact ⟨false, by rw [if_neg hcap]; rfl⟩
  obtain ⟨b, hb⟩ := hex
  unfold contains
  rw [hb]
  rfl

theorem meet_loop?_spec {other : SparseSetValue} (hB : other.wf) :
    ∀ (fuel : Nat) (s : SparseSetValue) (i : Nat), s.wf →
      s.m_element_num - i ≤ fuel →
      (∀ j, j < i → other.contains (s.dAt j) = true) →
      ∃ r, meet_loop? other fuel s i = some r ∧ r.wf ∧
        r.m_capacity = s.m_capacity ∧
        ∀ x, r.contains x = (s.contains x && other.contains x) := by
  intro fuel
  induction fuel with
  | zero =>
    intro s i h hfuel hpre
    have hni : ¬ i < s.m_element_num := by omega
    refine ⟨s, by simp [meet_loop?, hni], h, rfl, ?_⟩
    intro x
    cases hcx : s.contains x
    · simp
    · obtain ⟨hcap, hidx, hdx⟩ := (contains_true_iff h).mp hcx
      have hox : other.contains x = true := by
        rw [← hdx]
        exact hpre (s.sAt x) (by omega)
      simp [hox]
  | succ fuel ih =>
    intro s i h hfuel hpre
    by_cases hi : i < s.m_element_num
    swap
    · refine ⟨s, by simp [meet_loop?, hi], h, rfl, ?_⟩
      intro x
      cases hcx : s.contains x
      · simp
      · obtain ⟨hcap, hidx, hdx⟩ := (contains_true_iff h).mp hcx
        have hox : other.contains x = true := by
          rw [← hdx]
          exact hpre (s.sAt x) (by omega)
        simp [hox]
    · have hd : s.m_dense[i]? = some (s.dAt i) :=
        getD_some (by rw [h.dense_len]; exact lt_of_lt_of_le hi h.count_le)
      have hco : other.contains? (s.dAt i) = some (other.contains (s.dAt i)) :=
        contains?_eq_some hB (s.dAt i)
      by_cases hce : other.contains (s.dAt i) = true
      · have hpre' : ∀ j, j < i + 1 → other.contains (s.dAt j) = true := by
          intro j hj
          rcases Nat.lt_or_ge j i with hji | hji
          · exact hpre j hji
          · have : j = i := by omega
            rw [this]
            exact hce
        obtain ⟨r, hr, hrwf, hrcap, hrc⟩ := ih s (i + 1) h (by omega) hpre'
        refine ⟨r, ?_, hrwf, hrcap, hrc⟩
        simp only [meet_loop?]
        rw [if_pos hi]
        simp [hd, hco, hce, hr]
      · have hmem : s.contains (s.dAt i) = true := contains_of_at h hi
        have hex : s.remove (s.dAt i) = ⟨s.m_capacity, s.m_element_num - 1,
            s.m_dense.set (s.sAt (s.dAt i)) (s.dAt (s.m_element_num - 1)),
            s.m_sparse.set (s.dAt (s.m_element_num - 1))
              (s.sAt (s.dAt i))⟩ :=
          remove_of_mem h hmem
        have hrm : s.remove? (s.dAt i) = some (s.remove (s.dAt i)) :=
          remove?_eq_some h (s.dAt i)
        have hwf' : (s.remove (s.dAt i)).wf := wf_remove h (s.dAt i)
        have hsAte : s.sAt (s.dAt i) = i := h.sAt_dAt hi
        have hcount' : (s.remove (s.dAt i)).m_element_num =
            s.m_element_num - 1 := by rw [hex]
        have hcap' : (s.remove (s.dAt i)).m_capacity = s.m_capacity := by
          rw [hex]
        have hfront : ∀ j, j < i → (s.remove (s.dAt i)).dAt j = s.dAt j := by
          intro j hj
          rw [hex]
          show (s.m_dense.set (s.sAt (s.dAt i))
            (s.dAt (s.m_element_num - 1))).getD j 0 = s.dAt j
          rw [hsAte]
          exact getD_set_ne (by omega)
        have hpre' : ∀ j, j < i →
            other.contains ((s.remove (s.dAt i)).dAt j) = true := by
          intro j hj
          rw [hfront j hj]
          exact hpre j hj
        obtain ⟨r, hr, hrwf, hrcap, hrc⟩ := ih (s.remove (s.dAt i)) i hwf'
          (by rw [hcount']; omega) hpre'
        have hcr := contains_remove h (s.dAt i)
        refine ⟨r, ?_, hrwf, by rw [hrcap, hcap'], ?_⟩
        · simp only [meet_loop?]
          rw [if_pos hi]
          simp [hd, hco, hce, hrm, hr]
        · intro x
          rw [hrc x, hcr x]
          by_cases hx : x = s.dAt i
          · rw [hx]
            simp [hce]
          · simp [hx]

theorem meet_with?_spec {A B : SparseSetValue} (hA : A.wf) (hB : B.wf) :
    ∃ M, A.meet_with? B = some (M, AbstractValueKind.Value) ∧ M.wf ∧
      M.m_capacity = A.m_capacity ∧
      ∀ x, M.contains x = (A.contains x && B.contains x) := by
  obtain ⟨M, hM, h1, h2, h3⟩ := meet_loop?_spec hB A.m_element_num A 0 hA
    (by omega) (fun j hj => absurd hj (Nat.not_lt_zero j))
  refine ⟨M, ?_, h1, h2, h3⟩
  unfold meet_with?
  rw [hM]
  rfl

theorem meet_with_spec {A B : SparseSetValue} (hA : A.wf) (hB : B.wf) :
    (A.meet_with B).1.wf ∧ (A.meet_with B).1.m_capacity = A.m_capacity ∧
    (A.meet_with B).2 = AbstractValueKind.Value ∧
    ∀ x, (A.meet_with B).1.contains x = (A.contains x && B.contains x) := by
  obtain ⟨M, hM, h1, h2, h3⟩ := meet_with?_spec hA hB
  have heq : A.meet_with B = (M, AbstractValueKind.Value) := by
    unfold meet_with
    rw [hM]
    rfl
  rw [heq]
  exact ⟨h1, h2, rfl, h3⟩

theorem wf_clear {s : SparseSetValue} (h : s.wf) : s.clear.wf := by
  unfold clear
  refine ⟨h.1, h.2.1, Nat.zero_le _, ?_⟩
  intro i hi
  replace hi : i < 0 := hi
  exact absurd hi (Nat.not_lt_zero i)

/-! ### Claims -/

/-- C1: after A.join_with(B) the element set of A is the union of the
previous element sets; the capacity becomes max of the operand
capacities (elements of A being preserved is part of the union
characterization); the returned kind is Value; and join is commutative
and associative as an operation on element sets. -/
theorem join_with_correct (A B C : SparseSetValue)
    (hA : A.wf) (hB : B.wf) (hC : C.wf) :
    (∀ x, (A.join_with B).1.contains x = (A.contains x || B.contains x)) ∧
    (A.join_with B).1.m_capacity = max A.m_capacity B.m_capacity ∧
    (A.join_with B).2 = AbstractValueKind.Value ∧
    (∀ x, (A.join_with B).1.contains x = (B.join_with A).1.contains x) ∧
    (∀ x, ((A.join_with B).1.join_with C).1.contains x =
      (A.join_with (B.join_with C).1).1.contains x) := by
  obtain ⟨hABwf, hABcap, hABk, hABc⟩ := join_with_spec hA hB
  obtain ⟨hBAwf, _, _, hBAc⟩ := join_with_spec hB hA
  obtain ⟨hBCwf, _, _, hBCc⟩ := join_with_spec hB hC
  obtain ⟨_, _, _, hABCc⟩ := join_with_spec hABwf hC
  obtain ⟨_, _, _, hABC2c⟩ := join_with_spec hA hBCwf
  refine ⟨hABc, hABcap, hABk, ?_, ?_⟩
  · intro x
    rw [hABc x, hBAc x, Bool.or_comm]
  · intro x
    rw [hABCc x, hABc x, hABC2c x, hBCc x, Bool.or_assoc]

/-- Witness for C1 at concrete states. -/
theorem join_with_correct_witness :
    exA.wf ∧ exB.wf ∧ exC.wf ∧
    (exA.join_with exB).1.m_capacity = max exA.m_capacity exB.m_capacity :=
  ⟨by decide, by decide, by decide,
    (join_with_correct exA exB exC (by decide) (by decide) (by decide)).2.1⟩

/-- C2: after A.meet_with(B) the element set of A is exactly the
intersection of the previous element sets (the in-place walk removes by
swap-with-last and re-checks the swapped-in element before advancing,
so no element absent from B survives). -/
theorem meet_with_correct (A B : SparseSetValue) (hA : A.wf) (hB : B.wf) :
    ∀ x, (A.meet_with B).1.contains x = (A.contains x && B.contains x) :=
  (meet_with_spec hA hB).2.2.2

/-- Witness for C2 at concrete states. -/
theorem meet_with_correct_witness :
    exA.wf ∧ exB.wf ∧
    (exA.meet_with exB).1.contains 3 = (exA.contains 3 && exB.contains 3) :=
  ⟨by decide, by decide, meet_with_correct exA exB (by decide) (by decide) 3⟩

/-- C3: leq is the subset test on element sets (the early size test
never contradicts the subset characterization), and leq is reflexive,
antisymmetric in the sense that mutual leq implies equals, and
transitive. -/
theorem leq_correct (A B C : SparseSetValue)
    (hA : A.wf) (hB : B.wf) (hC : C.wf) :
    (A.leq B = true ↔ ∀ x, A.contains x = true → B.contains x = true) ∧
    A.leq A = true ∧
    (A.leq B = true → B.leq A = true → A.equals B = true) ∧
    (A.leq B = true → B.leq C = true → A.leq C = true) := by
  refine ⟨leq_true_iff hA hB, ?_, ?_, ?_⟩
  · exact (leq_true_iff hA hA).mpr (fun x hx => hx)
  · intro h1 h2
    unfold equals
    have hsub1 := (leq_true_iff hA hB).mp h1
    have hsub2 := (leq_true_iff hB hA).mp h2
    have hcnt : A.m_element_num = B.m_element_num :=
      le_antisymm (subset_count_le hA hB hsub1) (subset_count_le hB hA hsub2)
    simp [hcnt, h1]
  · intro h1 h2
    exact (leq_true_iff hA hC).mpr (fun x hx =>
      (leq_true_iff hB hC).mp h2 x ((leq_true_iff hA hB).mp h1 x hx))

/-- Witness for C3 at concrete states. -/
theorem leq_correct_witness :
    exA.wf ∧ exA.leq exA = true :=
  ⟨by decide, (leq_correct exA exB exC (by decide) (by decide) (by decide)).2.1⟩

/-- C4: every operation (add, remove, clear, join_with, widen_with,
meet_with, narrow_with) preserves the representation invariant
(∀ i < count, sparse[dense[i]] = i, with count ≤ capacity and both
vectors of length capacity), and size() returns exactly
m_element_num. -/
theorem ops_preserve_invariant (A B : SparseSetValue) (e : Nat)
    (hA : A.wf) (hB : B.wf) :
    (A.add e).wf ∧ (A.remove e).wf ∧ A.clear.wf ∧
    (A.join_with B).1.wf ∧ (A.widen_with B).1.wf ∧
    (A.meet_with B).1.wf ∧ (A.narrow_with B).1.wf ∧
    A.size = A.m_element_num ∧ A.m_element_num ≤ A.m_capacity :=
  ⟨wf_add hA e, wf_remove hA e, wf_clear hA,
   (join_with_spec hA hB).1, (join_with_spec hA hB).1,
   (meet_with_spec hA hB).1, (meet_with_spec hA hB).1,
   rfl, hA.count_le⟩

/-- Witness for C4 at concrete states. -/
theorem ops_preserve_invariant_witness :
    exA.wf ∧ exB.wf ∧ (exA.add 6).wf :=
  ⟨by decide, by decide,
    (ops_preserve_invariant exA exB 6 (by decide) (by decide)).1⟩

/-- C5: contains(e) holds exactly when e < capacity, sparse[e] is a
valid read yielding an index below count, and dense at that index holds
e; in particular contains(e) is false for e ≥ capacity.  This is
definitional and needs no invariant. -/
theorem contains_characterization (A : SparseSetValue) (e : Nat) :
    (A.contains e = true ↔ e < A.m_capacity ∧ ∃ di,
      A.m_sparse[e]? = some di ∧ di < A.m_element_num ∧
      A.m_dense[di]? = some e) ∧
    (A.m_capacity ≤ e → A.contains e = false) := by
  constructor
  · constructor
    · intro hc
      unfold contains contains? at hc
      by_cases hcap : e < A.m_capacity
      · rw [if_pos hcap] at hc
        cases hsp : A.m_sparse[e]? with
        | none =>
          rw [hsp] at hc
          exact absurd hc (by simp)
        | some di =>
          rw [hsp] at hc
          by_cases hdi : di < A.m_element_num
          · cases hdd : A.m_dense[di]? with
            | none =>
              simp [hdi, hdd] at hc
            | some d =>
              simp [hdi, hdd] at hc
              exact ⟨hcap, di, rfl, hdi, by rw [hdd, hc]⟩
          · simp [hdi] at hc
      · rw [if_neg hcap] at hc
        exact absurd hc (by simp)
    · rintro ⟨hcap, di, hsp, hdi, hdd⟩
      unfold contains contains?
      rw [if_pos hcap, hsp]
      simp [hdi, hdd]
  · intro hcap
    exact contains_of_cap hcap

/-- Witness for C5 at a concrete state. -/
theorem contains_characterization_witness :
    exA.m_capacity ≤ 9 ∧ exA.contains 9 = false :=
  ⟨by decide, (contains_characterization exA 9).2 (by decide)⟩

/-- C6: for e < capacity, add(e) makes contains(e) hold, a subsequent
remove(e) makes it false again, and that remove takes the swap-with-last
shape: the last dense entry is copied into the freed slot, its sparse
entry is repointed, and the count is decremented. -/
theorem add_remove_correct (A : SparseSetValue) (e : Nat) (hA : A.wf)
    (he : e < A.m_capacity) :
    (A.add e).contains e = true ∧
    ((A.add e).remove e).contains e = false ∧
    (A.add e).remove e = ⟨(A.add e).m_capacity, (A.add e).m_element_num - 1,
      (A.add e).m_dense.set ((A.add e).sAt e)
        ((A.add e).dAt ((A.add e).m_element_num - 1)),
      (A.add e).m_sparse.set ((A.add e).dAt ((A.add e).m_element_num - 1))
        ((A.add e).sAt e)⟩ := by
  have h1 : (A.add e).contains e = true := by
    rw [contains_add hA e e]
    simp [he]
  refine ⟨h1, ?_, ?_⟩
  · rw [contains_remove (wf_add hA e) e e]
    simp
  · exact remove_of_mem (wf_add hA e) h1

/-- Witness for C6 at a concrete state. -/
theorem add_remove_correct_witness :
    exA.wf ∧ 6 < exA.m_capacity ∧ (exA.add 6).contains 6 = true :=
  ⟨by decide, by decide, (add_remove_correct exA 6 (by decide) (by decide)).1⟩

/-- C7: add is idempotent on the whole state, and remove of an element
that is not present leaves the whole state (both vectors, count and
capacity) unchanged. -/
theorem add_idem_remove_noop (A : SparseSetValue) (e : Nat) (hA : A.wf) :
    (A.add e).add e = A.add e ∧
    (A.contains e = false → A.remove e = A) := by
  constructor
  · rcases Nat.lt_or_ge e A.m_capacity with hcap | hcap
    · cases hb : A.contains e
      · have h1 : (A.add e).contains e = true := by
          rw [contains_add hA e e]
          simp [hcap]
        exact add_of_mem (wf_add hA e) h1
      · rw [add_of_mem hA hb, add_of_mem hA hb]
    · rw [add_of_cap hcap, add_of_cap hcap]
  · intro hc
    exact remove_of_absent hA hc

/-- Witness for C7 at a concrete state. -/
theorem add_idem_remove_noop_witness :
    exA.wf ∧ (exA.add 6).add 6 = exA.add 6 :=
  ⟨by decide, (add_idem_remove_noop exA 6 (by decide)).1⟩

/-- C8: add(e) with e ≥ capacity is a silent no-op leaving the whole
state unchanged (capacity never grows through add); on the
default-constructed state, whose capacity is 0, every add is dropped and
the set stays empty. -/
theorem add_out_of_range (A : SparseSetValue) (e : Nat)
    (he : A.m_capacity ≤ e) (es : List Nat) :
    A.add e = A ∧
    default_value.m_capacity = 0 ∧
    (∀ x, default_value.add x = default_value) ∧
    addAll? default_value es = some default_value ∧
    (∀ x, default_value.contains x = false) ∧
    default_value.size = 0 := by
  refine ⟨add_of_cap he, rfl, ?_, ?_, ?_, rfl⟩
  · intro x
    exact add_of_cap (Nat.zero_le x)
  · induction es with
    | nil => rfl
    | cons a rest ih =>
      unfold addAll?
      rw [add?_of_cap (Nat.zero_le a)]
      simpa using ih
  · intro x
    exact contains_of_cap (Nat.zero_le x)

/-- Witness for C8 at a concrete state. -/
theorem add_out_of_range_witness :
    exA.m_capacity ≤ 9 ∧ exA.add 9 = exA :=
  ⟨by decide, (add_out_of_range exA 9 (by decide) [1, 2, 3]).1⟩

/-- C9: widen_with is the same operation as join_with and narrow_with
the same operation as meet_with, both on the resulting state and on the
returned kind, in the fallible and in the total reading. -/
theorem widen_narrow_delegate (A B : SparseSetValue) :
    A.widen_with B = A.join_with B ∧
    A.narrow_with B = A.meet_with B ∧
    A.widen_with? B = A.join_with? B ∧
    A.narrow_with? B = A.meet_with? B :=
  ⟨rfl, rfl, rfl, rfl⟩

/-- C10: under the representation invariant on both operands, every
vector read performed by contains, add, remove, join_with and meet_with
is in bounds: the Option-returning embeddings never hit the none
branch. -/
theorem memory_safety (A B : SparseSetValue) (e : Nat)
    (hA : A.wf) (hB : B.wf) :
    (A.contains? e).isSome = true ∧ (A.add? e).isSome = true ∧
    (A.remove? e).isSome = true ∧ (A.join_with? B).isSome = true ∧
    (A.meet_with? B).isSome = true := by
  refine ⟨?_, ?_, ?_, ?_, ?_⟩
  · rw [contains?_eq_some hA e]
    rfl
  · rw [add?_eq_some hA e]
    rfl
  · rw [remove?_eq_some hA e]
    rfl
  · obtain ⟨J, hJ, _⟩ := join_with?_spec hA hB
    rw [hJ]
    rfl
  · obtain ⟨M, hM, _⟩ := meet_with?_spec hA hB
    rw [hM]
    rfl

/-- Witness for C10 at concrete states. -/
theorem memory_safety_witness :
    exA.wf ∧ exB.wf ∧ (exA.contains? 5).isSome = true :=
  ⟨by decide, by decide,
    (memory_safety exA exB 5 (by decide) (by decide)).1⟩

end SparseSetValue

end SparseSetDomain
